import Mathlib

/-!
Shallow embedding of `src/matrix.c`: a square-matrix arithmetic library over
unsigned 32-bit integers.  Matrices are flat row-major buffers, modelled as
`List ℕ` whose stored values are reduced modulo `2^32` wherever the C code
performs `uint32_t` arithmetic.  The global dimension context
(`g_width`, `g_height`, `g_elements`) is modelled by an explicit `Dims`
record, and the global generator seed by explicit state passing.
-/

namespace MatrixC

/-- The modulus of `uint32_t` arithmetic. -/
def UINT32_MOD : ℕ := 2 ^ 32

/-- The global dimension context: `g_width`, `g_height`, `g_elements`. -/
structure Dims where
  width : ℕ
  height : ℕ
  elements : ℕ
  deriving Repr, DecidableEq

/-- Function `set_dimensions(order)`: sets `g_width = g_height = order` and
`g_elements = g_width * g_height`. -/
def set_dimensions (order : ℕ) : Dims :=
  { width := order, height := order, elements := order * order }

/-- Function `fast_rand()`: advances the LCG state
`g_seed = 214013 * g_seed + 2531011` (wrapping mod `2^32`) and returns
`(g_seed >> 16) & 0x7FFF`.  Modelled as state-passing:
input is the current `g_seed`, output is `(new g_seed, returned value)`. -/
def fast_rand (g_seed : ℕ) : ℕ × ℕ :=
  let s := (214013 * g_seed + 2531011) % UINT32_MOD
  (s, (s / 2 ^ 16) % 2 ^ 15)

/-- The fill loop of `random_matrix`: draws `n` values from `fast_rand`,
threading the generator state; returns the drawn list and final state. -/
def rand_stream : ℕ → ℕ → List ℕ × ℕ
  | 0, s => ([], s)
  | n + 1, s =>
    let p := fast_rand s
    let rest := rand_stream n p.1
    (p.2 :: rest.1, rest.2)

/-- Function `new_matrix()`: `calloc(g_elements, sizeof(uint32_t))`, i.e. a
zero-filled buffer of `g_elements` elements. -/
def new_matrix (d : Dims) : List ℕ :=
  List.replicate d.elements 0

/-- Function `identity_matrix()`: starts from `new_matrix()` and sets
`matrix[i * g_width + i] = 1` for `i` in `[0, g_width)`. -/
def identity_matrix (d : Dims) : List ℕ :=
  (List.range d.width).foldl (fun m i => m.set (i * d.width + i) 1) (new_matrix d)

/-- Function `random_matrix(seed)`: calls `set_seed(seed)` (overwriting the prior
global `g_seed`), then fills the `g_elements` cells in order with
`fast_rand()` draws.  Returns the matrix together with the final global
generator state.  The prior state `g_seed` is an explicit argument so that
its irrelevance is expressible. -/
def random_matrix (d : Dims) (seed : ℕ) (g_seed : ℕ) : List ℕ × ℕ :=
  let _ := g_seed
  rand_stream d.elements (seed % UINT32_MOD)

/-- Function `reversed(matrix)`: `result[i] = matrix[g_elements - 1 - i]` for
`i` in `[0, g_elements)`.  Out-of-bounds reads (only possible when the
argument is shorter than the context) are modelled as reading 0. -/
def reversed (d : Dims) (m : List ℕ) : List ℕ :=
  (List.range d.elements).map (fun i => m.getD (d.elements - 1 - i) 0)

/-- Function `scalar_add(matrix, scalar)`: `result[c] = matrix[c] + scalar` with
`uint32_t` wraparound, for `c` in `[0, g_elements)`. -/
def scalar_add (d : Dims) (m : List ℕ) (scalar : ℕ) : List ℕ :=
  (List.range d.elements).map (fun c => (m.getD c 0 + scalar) % UINT32_MOD)

/-- The innermost loop of `matrix_mul`:
`for (second_column = c % g_width; second_column < g_elements; second_column += g_width)
   result[c] += matrix_a[first_row++] * matrix_b[second_column];`
with all arithmetic in `uint32_t`.  `fuel` bounds the iteration count (the C
loop advances `second_column` by `g_width ≥ 1` each step, so `g_elements`
steps always suffice); arguments are
`fuel, first_row, second_column, acc = result[c]`. -/
def mul_inner (a b : List ℕ) (elements width : ℕ) : ℕ → ℕ → ℕ → ℕ → ℕ
  | 0, _, _, acc => acc
  | fuel + 1, first_row, second_column, acc =>
    if second_column < elements then
      mul_inner a b elements width fuel (first_row + 1) (second_column + width)
        ((acc + (a.getD first_row 0 * b.getD second_column 0) % UINT32_MOD) % UINT32_MOD)
    else acc

/-- Function `matrix_mul(matrix_a, matrix_b)`: for every output index `c`, the middle
loop starts `first_row` at `(c / g_width) * g_width`, runs the inner
accumulation once if that start index is below `g_elements`, then `break`s;
a cell whose middle loop never runs keeps its `calloc` value 0. -/
def matrix_mul (d : Dims) (a b : List ℕ) : List ℕ :=
  (List.range d.elements).map (fun c =>
    if (c / d.width) * d.width < d.elements then
      mul_inner a b d.elements d.width d.elements ((c / d.width) * d.width) (c % d.width) 0
    else 0)

/-- The loop of `matrix_pow`: `n` successive iterations of
`result = matrix_mul(result, matrix)`. -/
def pow_loop (d : Dims) (m : List ℕ) : ℕ → List ℕ → List ℕ
  | 0, r => r
  | n + 1, r => pow_loop d m n (matrix_mul d r m)

/-- Function `matrix_pow(matrix, exponent)`: `result` starts as `new_matrix()`;
the loop `for (c = 0; c < exponent - 1 && exponent != 0; c++)` performs
`exponent - 1` multiplications `result = matrix_mul(result, matrix)` when
`exponent ≥ 1` and none when `exponent == 0`; finally, when
`exponent == 0`, `result` is replaced by `identity_matrix()`. -/
def matrix_pow (d : Dims) (m : List ℕ) (exponent : ℕ) : List ℕ :=
  let result := new_matrix d
  let result := if exponent ≠ 0 then pow_loop d m (exponent - 1) result else result
  if exponent = 0 then identity_matrix d else result

/-- Function `get_sum(matrix)`: `uint32_t` wraparound sum of
`matrix[c]` for `c` in `[0, g_elements)`. -/
def get_sum (d : Dims) (m : List ℕ) : ℕ :=
  (List.range d.elements).foldl (fun acc c => (acc + m.getD c 0) % UINT32_MOD) 0

/-- Function `get_minimum(matrix)`: initialises the running minimum from `matrix[0]`,
then for `c` in `[0, g_elements)` replaces it by `matrix[c]` whenever
`matrix[c]` is smaller.  Every read is modelled through `getElem?`, so an
out-of-bounds access (the undefined behaviour of the C code) surfaces as
`none` instead of a value. -/
def get_minimum (d : Dims) (m : List ℕ) : Option ℕ :=
  (List.range d.elements).foldl
    (fun acc c => acc.bind (fun small =>
      (m[c]?).map (fun x => if x < small then x else small)))
    m[0]?

/-! ### General helper lemmas -/

/-- Reading a `map` over `List.range` at an in-range index yields the mapped
function applied to the index. -/
lemma getD_map_range (f : ℕ → ℕ) (E c : ℕ) (hc : c < E) :
    (((List.range E).map f).getD c 0) = f c := by
  have hlen : ((List.range E).map f).length = E := by simp
  rw [List.getD_eq_getElem ((List.range E).map f) 0 (by rw [hlen]; exact hc)]
  simp

/-- Absorbing one wrapped addition step into an outer modulus. -/
lemma step_mod (acc p S : ℕ) :
    ((acc + p % UINT32_MOD) % UINT32_MOD + S) % UINT32_MOD
      = (acc + p + S) % UINT32_MOD := by
  rw [Nat.mod_add_mod, add_right_comm, Nat.add_mod_mod, add_right_comm]

/-- Behaviour of `List.set` through `getD`. -/
lemma getD_set (m : List ℕ) (i p v : ℕ) :
    ((m.set i v).getD p 0) = if i = p ∧ p < m.length then v else m.getD p 0 := by
  rw [List.getD_eq_getElem?_getD, List.getD_eq_getElem?_getD, List.getElem?_set]
  by_cases hip : i = p
  · subst hip
    by_cases hlen : i < m.length <;> simp [hlen, List.getElem?_eq_none, Nat.le_of_not_lt]
  · simp [hip]

/-- Reading any position of a zero-replicate via `getD` yields 0. -/
lemma getD_replicate_zero (n p : ℕ) : ((List.replicate n (0 : ℕ)).getD p 0) = 0 := by
  rw [List.getD_eq_getElem?_getD]
  by_cases h : p < n
  · simp [List.getElem?_replicate, h]
  · simp [List.getElem?_eq_none, Nat.le_of_not_lt, h]

/-! ### The inner loop of matrix_mul -/

/-- Once `second_column` has reached `g_elements`, the inner loop stops and
returns the accumulator unchanged. -/
lemma mul_inner_stop (a b : List ℕ) (E w fuel fr sc acc : ℕ) (h : E ≤ sc) :
    mul_inner a b E w fuel fr sc acc = acc := by
  cases fuel <;> simp [mul_inner, Nat.not_lt.mpr h]

/-- The inner loop of `matrix_mul`, run for exactly `n ≥ 1` iterations
(characterised by the two bounds on `sc + k * w`), computes the wrapped
dot-product accumulation. -/
lemma mul_inner_spec (a b : List ℕ) (E w : ℕ) :
    ∀ n fuel fr sc acc, 1 ≤ n → n ≤ fuel →
      (∀ k, k < n → sc + k * w < E) → E ≤ sc + n * w →
      mul_inner a b E w fuel fr sc acc =
        (acc + ∑ k in Finset.range n, a.getD (fr + k) 0 * b.getD (sc + k * w) 0)
          % UINT32_MOD := by
  intro n
  induction n with
  | zero => omega
  | succ n ih =>
    intro fuel fr sc acc _ hfuel hlt hge
    obtain ⟨f, rfl⟩ : ∃ f, fuel = f + 1 := ⟨fuel - 1, by omega⟩
    have hsc : sc < E := by simpa using hlt 0 (Nat.succ_pos n)
    rw [mul_inner, if_pos hsc]
    rcases Nat.eq_zero_or_pos n with hn0 | hn1
    · subst hn0
      have hstop : E ≤ sc + w := by simpa using hge
      rw [mul_inner_stop a b E w f (fr + 1) (sc + w) _ hstop]
      simp [Nat.add_mod_mod]
    · have hlt2 : ∀ k, k < n → (sc + w) + k * w < E := by
        intro k hk
        have := hlt (k + 1) (by omega)
        rw [Nat.succ_mul] at this
        linarith
      have hge2 : E ≤ (sc + w) + n * w := by
        rw [Nat.succ_mul] at hge
        linarith
      rw [ih f (fr + 1) (sc + w)
        ((acc + a.getD fr 0 * b.getD sc 0 % UINT32_MOD) % UINT32_MOD)
        hn1 (by omega) hlt2 hge2]
      rw [Finset.sum_range_succ']
      have hidx : ∀ k, a.getD (fr + 1 + k) 0 * b.getD (sc + w + k * w) 0
          = a.getD (fr + (k + 1)) 0 * b.getD (sc + (k + 1) * w) 0 := by
        intro k
        rw [Nat.succ_mul]
        ring_nf
      simp only [hidx]
      rw [step_mod, add_zero, Nat.zero_mul, add_zero]
      congr 1
      ring

/-- Entry `c` of `matrix_mul` under an order-`N` context is the wrapped
dot product of row `c / N` of `a` with column `c % N` of `b`. -/
lemma matrix_mul_getD (N : ℕ) (hN : 1 ≤ N) (a b : List ℕ) (c : ℕ) (hc : c < N * N) :
    ((matrix_mul (set_dimensions N) a b).getD c 0) =
      (∑ k in Finset.range N, a.getD (c / N * N + k) 0 * b.getD (k * N + c % N) 0)
        % UINT32_MOD := by
  have hguard : c / N * N < N * N := lt_of_le_of_lt (Nat.div_mul_le_self c N) hc
  rw [matrix_mul]
  show (((List.range (set_dimensions N).elements).map _).getD c 0) = _
  rw [getD_map_range _ _ c (by simpa [set_dimensions] using hc)]
  simp only [set_dimensions]
  rw [if_pos hguard]
  have hmod : c % N < N := Nat.mod_lt c (by omega)
  rw [mul_inner_spec a b (N * N) N N (N * N) (c / N * N) (c % N) 0 hN
    (Nat.le_mul_of_pos_left N (by omega))
    (by
      intro k hk
      have h1 : c % N + k * N < (k + 1) * N := by
        rw [Nat.succ_mul]
        omega
      have h2 : (k + 1) * N ≤ N * N := Nat.mul_le_mul_right N (by omega)
      omega)
    (by omega)]
  rw [Nat.zero_add]
  congr 1
  exact Finset.sum_congr rfl fun k _ => by rw [Nat.add_comm (c % N) (k * N)]

/-- Claim C1: for every order `N ≥ 1` and `N*N`-element row-major matrices
`a` and `b`, `matrix_mul(a, b)` has `N*N` elements and its entry at every
linear index `c` (with `row = c / width`, `col = c % width`) is
`Σ_{k < width} a[row*width + k] * b[k*width + col]` taken modulo `2^32`;
in particular at order 2, `matrix_mul([1,2,3,4], [5,6,7,8]) =
[19,22,43,50]`. -/
theorem matrix_mul_correct :
    (∀ N : ℕ, 1 ≤ N → ∀ a b : List ℕ, a.length = N * N → b.length = N * N →
      (matrix_mul (set_dimensions N) a b).length = N * N ∧
      ∀ c, c < N * N →
        ((matrix_mul (set_dimensions N) a b).getD c 0) =
          (∑ k in Finset.range N, a.getD (c / N * N + k) 0 * b.getD (k * N + c % N) 0)
            % UINT32_MOD) ∧
    matrix_mul (set_dimensions 2) [1, 2, 3, 4] [5, 6, 7, 8] = [19, 22, 43, 50] := by
  constructor
  · intro N hN a b _ _
    refine ⟨by simp [matrix_mul, set_dimensions], ?_⟩
    intro c hc
    exact matrix_mul_getD N hN a b c hc
  · rfl

/-- Witness for C1: the general statement instantiated at order 2 with the
concrete matrices of the claim, entry `c = 1`. -/
theorem matrix_mul_correct_witness :
    ((matrix_mul (set_dimensions 2) [1, 2, 3, 4] [5, 6, 7, 8]).getD 1 0) =
      (∑ k in Finset.range 2,
        ([1, 2, 3, 4] : List ℕ).getD (1 / 2 * 2 + k) 0 *
          ([5, 6, 7, 8] : List ℕ).getD (k * 2 + 1 % 2) 0) % UINT32_MOD :=
  (matrix_mul_correct.1 2 (by decide) [1, 2, 3, 4] [5, 6, 7, 8] rfl rfl).2 1 (by decide)

/-! ### Zero propagation through matrix_mul and matrix_pow -/

/-- The inner loop accumulates nothing when every read of the left operand
yields 0. -/
lemma mul_inner_zero_left (a b : List ℕ) (E w : ℕ) (ha : ∀ i, a.getD i 0 = 0) :
    ∀ fuel fr sc, mul_inner a b E w fuel fr sc 0 = 0 := by
  intro fuel
  induction fuel with
  | zero => intro fr sc; rfl
  | succ f ih =>
    intro fr sc
    rw [mul_inner]
    split
    · rw [ha fr]
      simpa using ih (fr + 1) (sc + w)
    · rfl

/-- Multiplying with the all-zero matrix on the left yields the all-zero
matrix. -/
lemma matrix_mul_zero_left (d : Dims) (b : List ℕ) :
    matrix_mul d (new_matrix d) b = new_matrix d := by
  apply List.ext_getElem
  · simp [matrix_mul, new_matrix]
  · intro i h1 h2
    simp only [matrix_mul, new_matrix, List.getElem_map, List.getElem_range,
      List.getElem_replicate]
    split
    · exact mul_inner_zero_left (List.replicate d.elements 0) b d.elements d.width
        (fun j => getD_replicate_zero d.elements j) d.elements _ _
    · rfl

/-- The `matrix_pow` loop maps the all-zero accumulator to itself. -/
lemma pow_loop_zero (d : Dims) (m : List ℕ) :
    ∀ n, pow_loop d m n (new_matrix d) = new_matrix d := by
  intro n
  induction n with
  | zero => rfl
  | succ n ih => rw [pow_loop, matrix_mul_zero_left]; exact ih

/-- For a positive exponent, `matrix_pow` is the loop started from the
zero matrix. -/
lemma matrix_pow_of_pos (d : Dims) (m : List ℕ) (e : ℕ) (he : 1 ≤ e) :
    matrix_pow d m e = pow_loop d m (e - 1) (new_matrix d) := by
  have h0 : e ≠ 0 := by omega
  simp [matrix_pow, h0]

/-- Claim C3: under any dimension context with at least one element,
`matrix_pow(m, exponent)` with `exponent ≥ 1` returns the all-zero matrix
`new_matrix()` regardless of `m`: the accumulator starts at zero and
multiplication with an all-zero left operand stays all-zero. -/
theorem matrix_pow_always_zero (d : Dims) (m : List ℕ) (exponent : ℕ)
    (hE : 1 ≤ d.elements) (he : 1 ≤ exponent) :
    matrix_pow d m exponent = new_matrix d := by
  rw [matrix_pow_of_pos d m exponent he]
  exact pow_loop_zero d m (exponent - 1)

/-- Witness for C3: order 2, `m = [1,2,3,4]`, exponent 4 evaluates to the
zero matrix. -/
theorem matrix_pow_always_zero_witness :
    matrix_pow (set_dimensions 2) [1, 2, 3, 4] 4 = new_matrix (set_dimensions 2) :=
  matrix_pow_always_zero (set_dimensions 2) [1, 2, 3, 4] 4 (by decide) (by decide)

/-- Claim C2 (code bug): at order 2 with `m = [1,2,3,4]` the code returns
the all-zero matrix both for exponent 1 (claimed: `m`) and for exponent 4
(claimed, and recorded in the worked-example comment of the source itself:
`[199, 290, 435, 634]`). -/
theorem matrix_pow_bug_eval :
    matrix_pow (set_dimensions 2) [1, 2, 3, 4] 1 = [0, 0, 0, 0] ∧
    matrix_pow (set_dimensions 2) [1, 2, 3, 4] 4 = [0, 0, 0, 0] ∧
    ([0, 0, 0, 0] : List ℕ) ≠ [1, 2, 3, 4] ∧
    ([0, 0, 0, 0] : List ℕ) ≠ [199, 290, 435, 634] := by
  exact ⟨rfl, rfl, by decide, by decide⟩

/-! ### The identity matrix -/

/-- Effect of the diagonal-setting fold of `identity_matrix` on a single
position. -/
lemma identity_fold_getD (N : ℕ) :
    ∀ (l : List ℕ) (m : List ℕ) (p : ℕ),
      ((l.foldl (fun mm i => mm.set (i * N + i) 1) m).getD p 0) =
        if (∃ i ∈ l, i * N + i = p) ∧ p < m.length then 1 else m.getD p 0 := by
  intro l
  induction l with
  | nil => intro m p; simp
  | cons a l ih =>
    intro m p
    rw [List.foldl_cons, ih (m.set (a * N + a) 1) p, List.length_set, getD_set]
    by_cases hl : (∃ i ∈ l, i * N + i = p) ∧ p < m.length
    · rw [if_pos hl, if_pos ⟨⟨hl.1.choose, List.mem_cons_of_mem a hl.1.choose_spec.1,
        hl.1.choose_spec.2⟩, hl.2⟩]
    · rw [if_neg hl]
      by_cases ha : a * N + a = p ∧ p < m.length
      · rw [if_pos ha, if_pos ⟨⟨a, List.mem_cons_self a l, ha.1⟩, ha.2⟩]
      · rw [if_neg ha, if_neg]
        intro hc
        obtain ⟨⟨i, hi, hip⟩, hp⟩ := hc
        rcases List.mem_cons.mp hi with rfl | hi2
        · exact ha ⟨hip, hp⟩
        · exact hl ⟨⟨i, hi2, hip⟩, hp⟩

/-- A diagonal equation `k*N + k = i*N + j` with `k, i, j < N`
forces `k = i` and `k = j`. -/
lemma diag_index_eq (N k i j : ℕ) (hk : k < N) (hi : i < N) (hj : j < N)
    (h : k * N + k = i * N + j) : i = j ∧ k = i := by
  have hN : 0 < N := by omega
  have h1 : (k * N + k) / N = k := by
    rw [Nat.mul_comm, Nat.mul_add_div hN]
    simp [Nat.div_eq_of_lt hk]
  have h2 : (i * N + j) / N = i := by
    rw [Nat.mul_comm, Nat.mul_add_div hN]
    simp [Nat.div_eq_of_lt hj]
  have hki : k = i := by rw [← h1, h, h2]
  subst hki
  constructor
  · omega
  · rfl

/-- Entries of `identity_matrix` under an order-`N` context: 1 on the
diagonal, 0 elsewhere. -/
lemma identity_getD (N i j : ℕ) (hi : i < N) (hj : j < N) :
    ((identity_matrix (set_dimensions N)).getD (i * N + j) 0) =
      if i = j then 1 else 0 := by
  have hN : 0 < N := by omega
  have hp : i * N + j < N * N := by
    have h1 : i * N + j < (i + 1) * N := by rw [Nat.succ_mul]; omega
    have h2 : (i + 1) * N ≤ N * N := Nat.mul_le_mul_right N (by omega)
    omega
  have hdef : identity_matrix (set_dimensions N) =
      (List.range N).foldl (fun m i => m.set (i * N + i) 1) (List.replicate (N * N) 0) := rfl
  rw [hdef, identity_fold_getD N (List.range N) (List.replicate (N * N) 0) (i * N + j)]
  simp only [List.length_replicate, List.mem_range]
  by_cases hij : i = j
  · subst hij
    rw [if_pos ⟨⟨i, hi, rfl⟩, hp⟩, if_pos rfl]
  · rw [if_neg, if_neg hij, getD_replicate_zero]
    intro hc
    obtain ⟨⟨k, hk, hkeq⟩, _⟩ := hc
    exact hij (diag_index_eq N k i j hk hi hj hkeq).1

/-- Claim C4: `matrix_pow(m, 0)` returns `identity_matrix()` — zero
everywhere except diagonal entries equal to 1 — independent of `m`. -/
theorem matrix_pow_zero_exponent (N : ℕ) (m : List ℕ) :
    matrix_pow (set_dimensions N) m 0 = identity_matrix (set_dimensions N) ∧
    ∀ i j, i < N → j < N →
      ((matrix_pow (set_dimensions N) m 0).getD (i * N + j) 0) =
        if i = j then 1 else 0 := by
  have h : matrix_pow (set_dimensions N) m 0 = identity_matrix (set_dimensions N) := rfl
  refine ⟨h, ?_⟩
  intro i j hi hj
  rw [h]
  exact identity_getD N i j hi hj

/-- Witness for C4: order 3, an arbitrary matrix, diagonal entry (1,1) and
off-diagonal entry (1,2). -/
theorem matrix_pow_zero_exponent_witness :
    ((matrix_pow (set_dimensions 3) [5, 5, 5, 5, 5, 5, 5, 5, 5] 0).getD (1 * 3 + 1) 0) =
        (if 1 = 1 then 1 else 0 : ℕ) ∧
    ((matrix_pow (set_dimensions 3) [5, 5, 5, 5, 5, 5, 5, 5, 5] 0).getD (1 * 3 + 2) 0) =
        (if 1 = 2 then 1 else 0 : ℕ) :=
  ⟨(matrix_pow_zero_exponent 3 [5, 5, 5, 5, 5, 5, 5, 5, 5]).2 1 1 (by decide) (by decide),
   (matrix_pow_zero_exponent 3 [5, 5, 5, 5, 5, 5, 5, 5, 5]).2 1 2 (by decide) (by decide)⟩

/-! ### The power recurrence -/

/-- Peeling the last iteration off the `matrix_pow` loop. -/
lemma pow_loop_succ (d : Dims) (m : List ℕ) :
    ∀ n r, pow_loop d m (n + 1) r = matrix_mul d (pow_loop d m n r) m := by
  intro n
  induction n with
  | zero => intro r; rfl
  | succ n ih =>
    intro r
    rw [pow_loop, ih (matrix_mul d r m)]
    rfl

/-- Claim C5: for every order `N`, matrix `m` under that context and
`k ≥ 1`, `matrix_pow(m, k+1)` equals `matrix_mul(matrix_pow(m, k), m)`. -/
theorem matrix_pow_succ_recurrence (N k : ℕ) (m : List ℕ)
    (hm : m.length = (set_dimensions N).elements) (hk : 1 ≤ k) :
    matrix_pow (set_dimensions N) m (k + 1) =
      matrix_mul (set_dimensions N) (matrix_pow (set_dimensions N) m k) m := by
  rw [matrix_pow_of_pos (set_dimensions N) m (k + 1) (by omega),
    matrix_pow_of_pos (set_dimensions N) m k hk]
  obtain ⟨j, rfl⟩ : ∃ j, k = j + 1 := ⟨k - 1, by omega⟩
  simp only [Nat.add_sub_cancel]
  exact pow_loop_succ (set_dimensions N) m j (new_matrix (set_dimensions N))

/-- Witness for C5: order 2, `m = [1,2,3,4]`, `k = 1`. -/
theorem matrix_pow_succ_recurrence_witness :
    matrix_pow (set_dimensions 2) [1, 2, 3, 4] 2 =
      matrix_mul (set_dimensions 2) (matrix_pow (set_dimensions 2) [1, 2, 3, 4] 1)
        [1, 2, 3, 4] :=
  matrix_pow_succ_recurrence 2 1 [1, 2, 3, 4] rfl (by decide)

/-! ### Identity is neutral for matrix_mul -/

/-- Claim C6: under every order-`N` context with `N ≥ 1`, multiplying an
`N`-by-`N` matrix of `uint32_t` values by `identity_matrix()` on either
side returns that matrix unchanged. -/
theorem identity_mul_neutral (N : ℕ) (hN : 1 ≤ N) (m : List ℕ)
    (hm : m.length = N * N) (hlt : ∀ x ∈ m, x < UINT32_MOD) :
    matrix_mul (set_dimensions N) m (identity_matrix (set_dimensions N)) = m ∧
    matrix_mul (set_dimensions N) (identity_matrix (set_dimensions N)) m = m := by
  have hN0 : 0 < N := by omega
  constructor
  · apply List.ext_getElem
    · simp [matrix_mul, set_dimensions, hm]
    · intro i h1 h2
      have hi : i < N * N := by omega
      rw [← List.getD_eq_getElem _ 0 h1, ← List.getD_eq_getElem _ 0 h2,
        matrix_mul_getD N hN m (identity_matrix (set_dimensions N)) i hi]
      have hcol : i % N < N := Nat.mod_lt i hN0
      have hsum : ∀ k ∈ Finset.range N,
          m.getD (i / N * N + k) 0 *
            ((identity_matrix (set_dimensions N)).getD (k * N + i % N) 0) =
          if k = i % N then m.getD (i / N * N + k) 0 else 0 := by
        intro k hk
        rw [identity_getD N k (i % N) (Finset.mem_range.mp hk) hcol]
        by_cases h : k = i % N <;> simp [h]
      have hidx : i / N * N + i % N = i := by
        rw [Nat.mul_comm]
        exact Nat.div_add_mod i N
      rw [Finset.sum_congr rfl hsum, Finset.sum_ite_eq' (Finset.range N) (i % N),
        if_pos (Finset.mem_range.mpr hcol), hidx]
      exact Nat.mod_eq_of_lt (hlt _ (List.getD_eq_getElem m 0 h2 ▸ List.getElem_mem h2))
  · apply List.ext_getElem
    · simp [matrix_mul, set_dimensions, hm]
    · intro i h1 h2
      have hi : i < N * N := by omega
      rw [← List.getD_eq_getElem _ 0 h1, ← List.getD_eq_getElem _ 0 h2,
        matrix_mul_getD N hN (identity_matrix (set_dimensions N)) m i hi]
      have hrow : i / N < N := (Nat.div_lt_iff_lt_mul hN0).mpr hi
      have hsum : ∀ k ∈ Finset.range N,
          ((identity_matrix (set_dimensions N)).getD (i / N * N + k) 0) *
            m.getD (k * N + i % N) 0 =
          if i / N = k then m.getD (k * N + i % N) 0 else 0 := by
        intro k hk
        rw [identity_getD N (i / N) k hrow (Finset.mem_range.mp hk)]
        by_cases h : i / N = k <;> simp [h]
      have hidx : i / N * N + i % N = i := by
        rw [Nat.mul_comm]
        exact Nat.div_add_mod i N
      rw [Finset.sum_congr rfl hsum, Finset.sum_ite_eq (Finset.range N) (i / N),
        if_pos (Finset.mem_range.mpr hrow), hidx]
      exact Nat.mod_eq_of_lt (hlt _ (List.getD_eq_getElem m 0 h2 ▸ List.getElem_mem h2))

/-- Witness for C6: order 2 with `m = [1,2,3,4]`. -/
theorem identity_mul_neutral_witness :
    matrix_mul (set_dimensions 2) [1, 2, 3, 4] (identity_matrix (set_dimensions 2)) =
        [1, 2, 3, 4] ∧
    matrix_mul (set_dimensions 2) (identity_matrix (set_dimensions 2)) [1, 2, 3, 4] =
        [1, 2, 3, 4] :=
  identity_mul_neutral 2 (by decide) [1, 2, 3, 4] rfl (by decide)

/-! ### Determinism of random_matrix -/

/-- Since `random_matrix` begins with `set_seed(seed)`, its output matrix
does not depend on the incoming generator state. -/
lemma random_matrix_state_irrelevant (d : Dims) (seed g1 g2 : ℕ) :
    (random_matrix d seed g1).1 = (random_matrix d seed g2).1 := rfl

/-- Claim C7: `random_matrix(seed)` reseeds the generator before drawing,
so its matrix is independent of the prior global generator state: two calls
with the same seed under the same context agree element for element.  In
particular, at order 3 with seed 42, a second call made in the generator
state left behind by the first call returns the identical 9-element
matrix. -/
theorem random_matrix_deterministic :
    (∀ (N seed g1 g2 : ℕ),
      (random_matrix (set_dimensions N) seed g1).1 =
        (random_matrix (set_dimensions N) seed g2).1) ∧
    (∀ g : ℕ,
      (random_matrix (set_dimensions 3) 42
          ((random_matrix (set_dimensions 3) 42 g).2)).1 =
        (random_matrix (set_dimensions 3) 42 g).1 ∧
      ((random_matrix (set_dimensions 3) 42 g).1).length = 9) :=
  ⟨fun N seed g1 g2 => random_matrix_state_irrelevant (set_dimensions N) seed g1 g2,
   fun g =>
    ⟨random_matrix_state_irrelevant (set_dimensions 3) 42
        ((random_matrix (set_dimensions 3) 42 g).2) g,
     rfl⟩⟩

/-! ### Sum of a scalar_add -/

/-- The wrapped-sum fold started from a reduced accumulator equals the plain
sum taken modulo `2^32`. -/
lemma foldl_mod_sum (f : ℕ → ℕ) :
    ∀ (l : List ℕ) (acc : ℕ),
      l.foldl (fun a x => (a + f x) % UINT32_MOD) (acc % UINT32_MOD) =
        (acc + (l.map f).sum) % UINT32_MOD := by
  intro l
  induction l with
  | nil => intro acc; simp
  | cons x l ih =>
    intro acc
    rw [List.foldl_cons, Nat.mod_add_mod, ih (acc + f x)]
    simp [Nat.add_assoc]

/-- Reducing each mapped value modulo `2^32` does not change the sum
modulo `2^32`. -/
lemma sum_map_mod (h : ℕ → ℕ) :
    ∀ l : List ℕ,
      ((l.map fun c => h c % UINT32_MOD).sum) % UINT32_MOD =
        ((l.map h).sum) % UINT32_MOD := by
  intro l
  induction l with
  | nil => rfl
  | cons x l ih =>
    rw [List.map_cons, List.map_cons, List.sum_cons, List.sum_cons,
      Nat.mod_add_mod, Nat.add_mod (h x) ((l.map h).sum), ← ih,
      ← Nat.add_mod (h x) ((l.map fun c => h c % UINT32_MOD).sum)]

/-- Summing a pointwise shift by `s` adds `length * s` to the sum. -/
lemma sum_map_add_const (g : ℕ → ℕ) (s : ℕ) :
    ∀ l : List ℕ, ((l.map fun c => g c + s).sum) = (l.map g).sum + l.length * s := by
  intro l
  induction l with
  | nil => simp
  | cons x l ih =>
    rw [List.map_cons, List.map_cons, List.sum_cons, List.sum_cons, ih,
      List.length_cons]
    ring

/-- Any `get_sum` is the modular sum of its in-range reads. -/
lemma get_sum_eq (d : Dims) (m : List ℕ) :
    get_sum d m = (((List.range d.elements).map fun c => m.getD c 0).sum) % UINT32_MOD := by
  have h := foldl_mod_sum (fun c => m.getD c 0) (List.range d.elements) 0
  rw [Nat.zero_mod, Nat.zero_add] at h
  rw [get_sum]
  exact h

/-- Claim C8: for every matrix under the active context and every scalar
`s`, `get_sum(scalar_add(m, s))` equals
`get_sum(m) + s * element_count` modulo `2^32`. -/
theorem get_sum_scalar_add (N : ℕ) (m : List ℕ) (s : ℕ)
    (hm : m.length = (set_dimensions N).elements) :
    get_sum (set_dimensions N) (scalar_add (set_dimensions N) m s) =
      (get_sum (set_dimensions N) m + s * (set_dimensions N).elements) % UINT32_MOD := by
  set d := set_dimensions N with hd
  rw [get_sum_eq d (scalar_add d m s), get_sum_eq d m]
  have hmap : (List.range d.elements).map (fun c => (scalar_add d m s).getD c 0) =
      (List.range d.elements).map (fun c => (m.getD c 0 + s) % UINT32_MOD) := by
    apply List.map_congr_left
    intro c hc
    rw [scalar_add, getD_map_range _ d.elements c (List.mem_range.mp hc)]
  rw [hmap, sum_map_mod (fun c => m.getD c 0 + s) (List.range d.elements),
    sum_map_add_const (fun c => m.getD c 0) s (List.range d.elements),
    List.length_range, Nat.mod_add_mod]
  congr 1
  ring

/-- Witness for C8: order 2, `m = [1,2,3,4]`, `s = 10`. -/
theorem get_sum_scalar_add_witness :
    get_sum (set_dimensions 2) (scalar_add (set_dimensions 2) [1, 2, 3, 4] 10) =
      (get_sum (set_dimensions 2) [1, 2, 3, 4] + 10 * (set_dimensions 2).elements)
        % UINT32_MOD :=
  get_sum_scalar_add 2 [1, 2, 3, 4] 10 rfl

/-! ### Reversal -/

/-- Claim C9: `reversed(m)` returns a new matrix of `element_count`
elements whose entry at every linear index `i` is the entry of `m` at index
`element_count - 1 - i`. -/
theorem reversed_spec (d : Dims) (m : List ℕ) (hm : m.length = d.elements) :
    (reversed d m).length = d.elements ∧
    ∀ i, i < d.elements →
      ((reversed d m).getD i 0) = m.getD (d.elements - 1 - i) 0 := by
  refine ⟨by simp [reversed], ?_⟩
  intro i hi
  rw [reversed, getD_map_range _ d.elements i hi]

/-- Witness for C9: order 2, `m = [1,2,3,4]`, index 0 reads entry 3. -/
theorem reversed_spec_witness :
    ((reversed (set_dimensions 2) [1, 2, 3, 4]).getD 0 0) =
      ([1, 2, 3, 4] : List ℕ).getD ((set_dimensions 2).elements - 1 - 0) 0 :=
  (reversed_spec (set_dimensions 2) [1, 2, 3, 4] rfl).2 0 (by decide)

/-! ### Minimum -/

/-- The scanning fold of `get_minimum`, started from a value of `m` and fed
only in-bounds indices, returns a value of `m` that is bounded by its start
and by every scanned element. -/
lemma min_fold_some (m : List ℕ) :
    ∀ l : List ℕ, (∀ c ∈ l, c < m.length) → ∀ v, v ∈ m →
      ∃ u, (l.foldl
          (fun acc c => acc.bind fun small =>
            (m[c]?).map fun x => if x < small then x else small)
          (some v)) = some u ∧
        u ∈ m ∧ u ≤ v ∧ ∀ c (h : c < m.length), c ∈ l → u ≤ m[c] := by
  intro l
  induction l with
  | nil =>
    intro _ v hv
    exact ⟨v, rfl, hv, le_refl v, fun c h hc => absurd hc (List.not_mem_nil c)⟩
  | cons c l ih =>
    intro hbound v hv
    have hc : c < m.length := hbound c (List.mem_cons_self c l)
    have hinit : ((some v).bind fun small =>
        (m[c]?).map fun x => if x < small then x else small) =
        some (if m[c] < v then m[c] else v) := by
      simp [List.getElem?_eq_getElem hc]
    rw [List.foldl_cons, hinit]
    have hv2 : (if m[c] < v then m[c] else v) ∈ m := by
      split
      · exact List.getElem_mem hc
      · exact hv
    obtain ⟨u, hfold, humem, hule, hall⟩ :=
      ih (fun c2 hc2 => hbound c2 (List.mem_cons_of_mem c hc2))
        (if m[c] < v then m[c] else v) hv2
    refine ⟨u, hfold, humem, ?_, ?_⟩
    · exact le_trans hule (by split <;> omega)
    · intro c0 h hc0
      rcases List.mem_cons.mp hc0 with rfl | hmem
      · exact le_trans hule (by split <;> omega)
      · exact hall c0 h hmem

/-- Claim C10: when `element_count ≥ 1` and `m` has `element_count`
elements, every read of `get_minimum` is in bounds — the `Option`-typed
embedding returns `some` value — and the value returned occurs in `m` and
is less than or equal to every element of `m`. -/
theorem get_minimum_spec (d : Dims) (m : List ℕ)
    (hm : m.length = d.elements) (hE : 1 ≤ d.elements) :
    ∃ v, get_minimum d m = some v ∧ v ∈ m ∧ ∀ x ∈ m, v ≤ x := by
  have h0 : 0 < m.length := by omega
  obtain ⟨u, hfold, humem, _, hall⟩ :=
    min_fold_some m (List.range d.elements)
      (fun c hcmem => by rw [hm]; exact List.mem_range.mp hcmem)
      (m[0]) (List.getElem_mem h0)
  refine ⟨u, ?_, humem, ?_⟩
  · rw [get_minimum, List.getElem?_eq_getElem h0]
    exact hfold
  · intro x hx
    obtain ⟨i, hi, rfl⟩ := List.getElem_of_mem hx
    exact hall i hi (List.mem_range.mpr (by omega))

/-- Witness for C10: order 2, `m = [7,3,9,5]`. -/
theorem get_minimum_spec_witness :
    ∃ v, get_minimum (set_dimensions 2) [7, 3, 9, 5] = some v ∧
      v ∈ ([7, 3, 9, 5] : List ℕ) ∧ ∀ x ∈ ([7, 3, 9, 5] : List ℕ), v ≤ x :=
  get_minimum_spec (set_dimensions 2) [7, 3, 9, 5] rfl (by decide)

end MatrixC
